import Mathlib

/-!
# F-Secure plugin: scan-output and version-output parsers

A shallow embedding of `scan.go` (`ParseFSecureOutput`, `parseFSecureVersion`,
`parseUpdatedDate`) together with the parts of the Go standard library they call
(`strings.Split`, `strings.Contains`, `strings.TrimSpace`, `strings.TrimPrefix`,
`strings.TrimSuffix`, `time.Parse`, `fmt.Sprintf`).

Go strings are modelled as lists of Unicode code points (well-formed UTF-8 text).
Substring search on code points agrees with Go's byte-wise search on such text,
because UTF-8 is self-synchronising.
-/

namespace FSecure

/-- Go `string`, as the list of its code points. -/
abbrev Str := List Char

namespace strings

/-- Go `strings.HasPrefix(s, pre)`. -/
def HasPrefix (s pre : Str) : Bool := pre.isPrefixOf s

/-- Go `strings.HasSuffix(s, suf)`. -/
def HasSuffix (s suf : Str) : Bool := suf.isSuffixOf s

/-- Go `strings.Index(s, sub)`: position of the first occurrence of `sub` in `s`;
`none` stands for Go's `-1`. -/
def Index : Str → Str → Option Nat
  | [], sub => if sub.isEmpty then some 0 else none
  | c :: s, sub =>
    if HasPrefix (c :: s) sub then some 0 else (Index s sub).map (· + 1)

/-- Go `strings.Contains(s, sub)`, which is `Index(s, sub) >= 0`. -/
def Contains (s sub : Str) : Bool := (Index s sub).isSome

/-- Go `strings.TrimPrefix(s, pre)`. -/
def TrimPrefix (s pre : Str) : Str :=
  if HasPrefix s pre then s.drop pre.length else s

/-- Go `strings.TrimSuffix(s, suf)`. -/
def TrimSuffix (s suf : Str) : Str :=
  if HasSuffix s suf then s.take (s.length - suf.length) else s

/-- Go `unicode.IsSpace`: the code points with the Unicode White_Space property. -/
def IsSpace (c : Char) : Bool :=
  let n := c.toNat
  (0x09 ≤ n && n ≤ 0x0D) || n == 0x20 || n == 0x85 || n == 0xA0 || n == 0x1680 ||
  (0x2000 ≤ n && n ≤ 0x200A) || n == 0x2028 || n == 0x2029 || n == 0x202F ||
  n == 0x205F || n == 0x3000

/-- Go `strings.TrimSpace(s)`: `s` without leading and trailing white space. -/
def TrimSpace (s : Str) : Str :=
  ((s.dropWhile IsSpace).reverse.dropWhile IsSpace).reverse

/-- The loop of Go `genSplit` for a non-empty separator: cut `s` at the first
occurrence of `sep`, at most `n` times; the rest of the text is the last field. -/
def genSplit (sep : Str) : Nat → Str → List Str
  | 0, s => [s]
  | n + 1, s =>
    match Index s sep with
    | none => [s]
    | some m => s.take m :: genSplit sep n (s.drop (m + sep.length))

/-- Go `explode`: one field per code point (used by `Split` for an empty separator). -/
def explode (s : Str) : List Str := s.map fun c => [c]

/-- Go `strings.Split(s, sep)`. The number of cuts is bounded by `len(s)`, as in Go,
where the field count is capped at `len(s) + 1`. -/
def Split (s sep : Str) : List Str :=
  if sep.isEmpty then explode s else genSplit sep s.length s

end strings

open strings

/-- The literal `"Infected:"`. -/
def infectedLit : Str := "Infected:".toList

/-- The literal `"[FSE]"`. -/
def fseTag : Str := "[FSE]".toList

/-- The literal `"[Aquarius]"`. -/
def aquariusTag : Str := "[Aquarius]".toList

/-- The literal `"\n"`. -/
def newline : Str := ['\n']

/-- Go struct `ScanEngines`. -/
structure ScanEngines where
  FSE : Str
  Aquarius : Str
  deriving DecidableEq, Repr

/-- Go struct `ResultsData`. -/
structure ResultsData where
  Infected : Bool
  Engines : ScanEngines
  Engine : Str
  Database : Str
  Updated : Str
  deriving DecidableEq, Repr

/-- What the scanner process and the file system hand to the parser: the text printed
by `fsav --version` (read by `getFSecureVersion`), the package variable `BuildTime`,
and the contents of `/opt/malice/UPDATED` when that file exists. -/
structure Env where
  versionOut : Str
  BuildTime : Str
  updatedFile : Option Str

/-- The literal `"F-Secure Linux Security version"`. -/
def versionLit : Str := "F-Secure Linux Security version".toList

/-- The literal `"Database version:"`. -/
def databaseLit : Str := "Database version:".toList

/-- The literal `":"`. -/
def colon : Str := [':']

/-- The `for` loop of `parseFSecureVersion`, over the lines still to be read, with the
current values of the named results `version` and `database`. The `break` ends the
loop; the `else` branch only logs and goes on to the next line. -/
def versionLoop : List Str → Str → Str → Str × Str
  | [], version, database => (version, database)
  | line :: rest, version, database =>
    let version :=
      if Contains line versionLit then TrimSpace (TrimPrefix line versionLit) else version
    if Contains line databaseLit then
      match Split line colon with
      | [_, p1] => (version, TrimSpace p1)
      | _ => versionLoop rest version database
    else versionLoop rest version database

/-- Go `parseFSecureVersion(versionOut)`, returning `(version, database)`. -/
def parseFSecureVersion (versionOut : Str) : Str × Str :=
  versionLoop (Split versionOut newline) [] []

/-- Go `getFSecureVersion()`: parses the output of `fsav --version`. -/
def getFSecureVersion (env : Env) : Str × Str := parseFSecureVersion env.versionOut

/-- Go `getUpdatedDate()`: `BuildTime` when `/opt/malice/UPDATED` does not exist,
else the contents of that file. -/
def getUpdatedDate (env : Env) : Str :=
  match env.updatedFile with
  | none => env.BuildTime
  | some updated => updated

/-- The condition of the first `if` of the loop of `ParseFSecureOutput`: the line has
`Infected:` and `[FSE]`. -/
def isFSELine (line : Str) : Bool := Contains line infectedLit && Contains line fseTag

/-- The condition of the second `if` of the loop: the line has `Infected:` and
`[Aquarius]`. -/
def isAquariusLine (line : Str) : Bool :=
  Contains line infectedLit && Contains line aquariusTag

/-- One pass of the body of the `for` loop of `ParseFSecureOutput` on `line`.
`none` is the run-time panic of an out-of-range `parts[1]`. The first branch ends
with `continue`, so the second is only reached when the first condition fails. -/
def scanLine (fsecure : ResultsData) (line : Str) : Option ResultsData :=
  if isFSELine line then
    match (Split line infectedLit)[1]? with
    | none => none
    | some p1 =>
      some { fsecure with
        Infected := true
        Engines := { fsecure.Engines with FSE := TrimSpace (TrimSuffix p1 fseTag) } }
  else if isAquariusLine line then
    match (Split line infectedLit)[1]? with
    | none => none
    | some p1 =>
      some { fsecure with
        Infected := true
        Engines := { fsecure.Engines with Aquarius := TrimSpace (TrimSuffix p1 aquariusTag) } }
  else some fsecure

/-- The value of `fsecure` before the loop of `ParseFSecureOutput`. -/
def initResults (env : Env) : ResultsData :=
  { Infected := false
    Engines := { FSE := [], Aquarius := [] }
    Engine := (getFSecureVersion env).1
    Database := (getFSecureVersion env).2
    Updated := getUpdatedDate env }

/-- Go `error` values. -/
abbrev GoError := Str

/-- Go `ParseFSecureOutput(fsecureout)`: the pair `(ResultsData, error)` it returns, the
error being `none` for `nil`; the outer `none` is a run-time panic. -/
def ParseFSecureOutput (env : Env) (fsecureout : Str) :
    Option (ResultsData × Option GoError) :=
  match (Split fsecureout newline).foldlM scanLine (initResults env) with
  | none => none
  | some fsecure => some (fsecure, none)

namespace time

/-- Go `time.shortDayNames`. -/
def shortDayNames : List Str :=
  ["Sun".toList, "Mon".toList, "Tue".toList, "Wed".toList, "Thu".toList, "Fri".toList,
    "Sat".toList]

/-- Go `time.shortMonthNames`. -/
def shortMonthNames : List Str :=
  ["Jan".toList, "Feb".toList, "Mar".toList, "Apr".toList, "May".toList, "Jun".toList,
    "Jul".toList, "Aug".toList, "Sep".toList, "Oct".toList, "Nov".toList, "Dec".toList]

/-- One step of Go `time.match`: two characters agree, ignoring ASCII case. -/
def matchChar (c1 c2 : Char) : Bool :=
  c1 == c2 ||
    ((c1.toNat ||| 0x20) == (c2.toNat ||| 0x20) &&
      0x61 ≤ (c1.toNat ||| 0x20) && (c1.toNat ||| 0x20) ≤ 0x7A)

/-- Go `time.match(s1, s2)` for two strings of the same length. -/
def matchFold : Str → Str → Bool
  | [], [] => true
  | c1 :: s1, c2 :: s2 => matchChar c1 c2 && matchFold s1 s2
  | _, _ => false

/-- Go `time.lookup(tab, val)`: index of the first entry of `tab` that starts `val`
(ignoring case) and the rest of `val`; `none` is `errBad`. -/
def lookup : List Str → Str → Option (Nat × Str)
  | [], _ => none
  | v :: tab, val =>
    if v.length ≤ val.length && matchFold (val.take v.length) v then
      some (0, val.drop v.length)
    else (lookup tab val).map fun r => (r.1 + 1, r.2)

/-- Go `time.isDigit(s, i)`. -/
def isDigit (s : Str) (i : Nat) : Bool :=
  match s[i]? with
  | none => false
  | some c => 0x30 ≤ c.toNat && c.toNat ≤ 0x39

/-- Value of a decimal digit. -/
def digitVal (c : Char) : Nat := c.toNat - 0x30

/-- Go `time.getnum(s, fixed)`: one or two leading digits (two when `fixed`). -/
def getnum (s : Str) (fixed : Bool) : Option (Nat × Str) :=
  match s with
  | c0 :: c1 :: rest =>
    if !isDigit s 0 then none
    else if !isDigit s 1 then (if fixed then none else some (digitVal c0, c1 :: rest))
    else some (digitVal c0 * 10 + digitVal c1, rest)
  | [c0] =>
    if !isDigit s 0 then none
    else if fixed then none else some (digitVal c0, [])
  | [] => none

/-- Go `time.cutspace`. -/
def cutspace (s : Str) : Str := s.dropWhile (· == ' ')

/-- Go `time.skip(value, pre)`: `value` without the literal text `pre`, where a
blank of `pre` stands for any run of blanks; `none` is `errBad`. -/
def skip : Nat → Str → Str → Option Str
  | 0, _, _ => none
  | _ + 1, value, [] => some value
  | n + 1, value, p :: pre =>
    if p == ' ' then
      match value with
      | v :: _ => if v != ' ' then none else skip n (cutspace value) (cutspace (p :: pre))
      | [] => skip n (cutspace value) (cutspace (p :: pre))
    else
      match value with
      | [] => none
      | v :: value => if v != p then none else skip n value pre

/-- Go `time.isLeap`. -/
def isLeap (year : Nat) : Bool := year % 4 == 0 && (year % 100 != 0 || year % 400 == 0)

/-- Go `time.daysIn(m, year)`. -/
def daysIn (m year : Nat) : Nat :=
  if m == 2 then (if isLeap year then 29 else 28)
  else if m == 4 || m == 6 || m == 9 || m == 11 then 30 else 31

/-- Calendar date of a Go `time.Time` in UTC. -/
structure Date where
  year : Nat
  month : Nat
  day : Nat
  deriving DecidableEq, Repr

/-- The zero `time.Time`: January 1, year 1. -/
def zeroTime : Date := { year := 1, month := 1, day := 1 }

/-- The four-digit year of the layout element `2006`. -/
def parseYear (value : Str) : Option (Nat × Str) :=
  match value with
  | c0 :: c1 :: c2 :: c3 :: rest =>
    if [c0, c1, c2, c3].all (fun c => isDigit [c] 0) then
      some (((digitVal c0 * 10 + digitVal c1) * 10 + digitVal c2) * 10 + digitVal c3, rest)
    else none
  | _ => none

/-- A fractional second in the input that the layout does not have: after the seconds,
a period or comma followed by a digit starts a run of digits that is read and
dropped. -/
def skipFraction (value : Str) : Str :=
  match value with
  | c0 :: c1 :: rest =>
    if (c0 == '.' || c0 == ',') && isDigit [c1] 0 then
      rest.dropWhile fun c => isDigit [c] 0
    else value
  | _ => value

/-- The part of `time.Parse` for the layout elements `15:04:05` and the literal text
after them: the input left after the year; `none` when `Parse` returns an error, else
the rest of the input. -/
def parseClock (value : Str) : Option Str :=
  (skip 8 value " ".toList).bind fun value =>
  (getnum value false).bind fun hour =>
  if 24 ≤ hour.1 then none else
  (skip 8 hour.2 ":".toList).bind fun value =>
  (getnum value true).bind fun min =>
  if 60 ≤ min.1 then none else
  (skip 8 min.2 ":".toList).bind fun value =>
  (getnum value true).bind fun sec =>
  if 60 ≤ sec.1 then none else
  skip 8 (skipFraction sec.2) " +0000".toList

/-- The part of `time.Parse` for the layout elements `Mon, 02 Jan 2006`: the day, the
month, the year and the rest of the input. -/
def parseCalendar (value : Str) : Option (Nat × Nat × Nat × Str) :=
  (lookup shortDayNames value).bind fun wd =>
  (skip 8 wd.2 ", ".toList).bind fun value =>
  (getnum value true).bind fun day =>
  (skip 8 day.2 " ".toList).bind fun value =>
  (lookup shortMonthNames value).bind fun month =>
  (skip 8 month.2 " ".toList).bind fun value =>
  (parseYear value).bind fun year =>
  some (day.1, month.1 + 1, year.1, year.2)

/-- Go `time.Parse("Mon, 02 Jan 2006 15:04:05 +0000", value)`, as in the current Go
releases: the calendar date of the parsed time, or `none` when `Parse` returns an error.
The layout elements are, in order, `Mon`, `02`, `Jan`, `2006`, `15`, `04`, `05`; the
text `+0000` is literal. No text may follow, and the day has to exist in its month. -/
def Parse (value : Str) : Option Date :=
  match parseCalendar value with
  | none => none
  | some (day, month, year, value) =>
    match parseClock value with
    | none => none
    | some value =>
      if value.length != 0 then none
      else if day < 1 || day > daysIn month year then none
      else some { year := year, month := month, day := day }

end time

namespace fmt

/-- Go verb `%d` on a non-negative integer. -/
def verbD (n : Nat) : Str := Nat.toDigits 10 n

/-- Go verb `%02d` on a non-negative integer: at least two digits, padded with `0`. -/
def verb02D (n : Nat) : Str :=
  List.replicate (2 - (Nat.toDigits 10 n).length) '0' ++ Nat.toDigits 10 n

end fmt

/-- Go `parseUpdatedDate(date)`: the error of `time.Parse` is dropped, so a text that
does not parse is formatted from the zero time. -/
def parseUpdatedDate (date : Str) : Str :=
  let t := (time.Parse date).getD time.zeroTime
  fmt.verbD t.year ++ fmt.verb02D t.month ++ fmt.verb02D t.day

/-- The verdict the loop reads off a line for the engine tag `tag`:
`strings.TrimSpace(strings.TrimSuffix(parts[1], tag))` with
`parts := strings.Split(line, "Infected:")`. -/
def verdictOf (tag line : Str) : Str :=
  TrimSpace (TrimSuffix ((Split line infectedLit).getD 1 []) tag)

/-- The loop body without the range check of `parts[1]`. -/
def scanStep (fsecure : ResultsData) (line : Str) : ResultsData :=
  if isFSELine line then
    { fsecure with
      Infected := true
      Engines := { fsecure.Engines with FSE := verdictOf fseTag line } }
  else if isAquariusLine line then
    { fsecure with
      Infected := true
      Engines := { fsecure.Engines with Aquarius := verdictOf aquariusTag line } }
  else fsecure

/-- A line that ends the loop of `parseFSecureVersion`: it contains
`Database version:` and `strings.Split(line, ":")` has exactly two fields. -/
def isDatabaseLine (line : Str) : Bool :=
  Contains line databaseLit && (Split line colon).length == 2

/-- A sample environment: the version text of the scanner, a build time, and no
`UPDATED` file. -/
def sampleEnv : Env :=
  { versionOut :=
      "F-Secure Linux Security version 11.00 build 79\nDatabase version: 2016-09-19_01".toList
    BuildTime := "20160822".toList
    updatedFile := none }

/-- The scan output quoted in the comment of `ParseFSecureOutput`, shortened. -/
def sampleScan : Str :=
  ("Scan started at Mon Aug 22 02:43:50 2016\nDatabase version: 2016-08-22_01\n\n" ++
    "eicar.com.txt: Infected: EICAR_Test_File [FSE]\n" ++
    "eicar.com.txt: Infected: EICAR-Test-File (not a virus) [Aquarius]\n\n" ++
    "1 file scanned").toList

/-- The version text quoted in the comment of `getFSecureVersion`, shortened. -/
def sampleVersion : Str :=
  ("EVALUATION VERSION - FULLY FUNCTIONAL\n\n" ++
    "F-Secure Linux Security version 11.00 build 79\n\n" ++
    "Database version: 2016-09-19_01\n\nScanner Engine versions:").toList

/-! ## Facts about the string functions -/

namespace strings

theorem Index_nil {sep : Str} (h : sep ≠ []) : Index [] sep = none := by
  cases sep with
  | nil => exact absurd rfl h
  | cons c t => simp [Index]

theorem genSplit_ne_nil (sep : Str) (n : Nat) (s : Str) : genSplit sep n s ≠ [] := by
  cases n with
  | zero => simp [genSplit]
  | succ n =>
    unfold genSplit
    split <;> simp

theorem genSplit_fuel {sep : Str} (hsep : sep ≠ []) :
    ∀ (n m : Nat) (s : Str), s.length ≤ n → s.length ≤ m →
      genSplit sep n s = genSplit sep m s := by
  have hlen : 1 ≤ sep.length := by
    cases sep with
    | nil => exact absurd rfl hsep
    | cons c t => simp
  have hzero : ∀ (m : Nat) (s : Str), s.length ≤ 0 → genSplit sep m s = [s] := by
    intro m s hs
    have hs0 : s = [] := List.length_eq_zero.mp (Nat.le_zero.mp hs)
    subst hs0
    cases m with
    | zero => rfl
    | succ m => simp [genSplit, Index_nil hsep]
  intro n
  induction n with
  | zero =>
    intro m s hn _
    rw [hzero 0 s hn, hzero m s hn]
  | succ n ih =>
    intro m s hn hm
    cases m with
    | zero => rw [hzero 0 s hm, hzero (n + 1) s hm]
    | succ m =>
      unfold genSplit
      cases hI : Index s sep with
      | none => rfl
      | some k =>
        simp only
        rw [ih m (s.drop (k + sep.length))]
        · simp only [List.length_drop]; omega
        · simp only [List.length_drop]; omega

theorem Split_of_Index_none {s sep : Str} (hsep : sep ≠ []) (h : Index s sep = none) :
    Split s sep = [s] := by
  have he : sep.isEmpty = false := by
    cases sep with
    | nil => exact absurd rfl hsep
    | cons c t => rfl
  unfold Split
  rw [he]
  simp only [Bool.false_eq_true, if_false]
  cases hl : s.length with
  | zero => rfl
  | succ n => simp [genSplit, h]

theorem Split_of_Index_some {s sep : Str} {m : Nat} (hsep : sep ≠ [])
    (h : Index s sep = some m) :
    Split s sep = s.take m :: Split (s.drop (m + sep.length)) sep := by
  have he : sep.isEmpty = false := by
    cases sep with
    | nil => exact absurd rfl hsep
    | cons c t => rfl
  have hlen : 1 ≤ sep.length := by
    cases sep with
    | nil => exact absurd rfl hsep
    | cons c t => simp
  unfold Split
  rw [he]
  simp only [Bool.false_eq_true, if_false]
  cases hl : s.length with
  | zero =>
    have hs0 : s = [] := List.length_eq_zero.mp hl
    subst hs0
    rw [Index_nil hsep] at h
    cases h
  | succ n =>
    have hd : (s.drop (m + sep.length)).length ≤ n := by
      simp only [List.length_drop]; omega
    simp only [genSplit, h]
    rw [genSplit_fuel hsep n _ _ hd (Nat.le_refl _)]

theorem Split_ne_nil {s sep : Str} (hsep : sep ≠ []) : Split s sep ≠ [] := by
  have he : sep.isEmpty = false := by
    cases sep with
    | nil => exact absurd rfl hsep
    | cons c t => rfl
  unfold Split
  rw [he]
  exact genSplit_ne_nil _ _ _

/-- A text that contains a non-empty separator splits into at least two fields. -/
theorem two_le_length_Split {s sep : Str} (hsep : sep ≠ [])
    (h : Contains s sep = true) : 2 ≤ (Split s sep).length := by
  unfold Contains at h
  cases hI : Index s sep with
  | none => rw [hI] at h; cases h
  | some m =>
    rw [Split_of_Index_some hsep hI]
    have := List.length_pos.mpr (Split_ne_nil (s := s.drop (m + sep.length)) hsep)
    simp only [List.length_cons]
    omega

end strings

namespace strings

theorem HasPrefix_append (sep rest : Str) : HasPrefix (sep ++ rest) sep = true := by
  unfold HasPrefix
  exact List.isPrefixOf_iff_prefix.mpr (List.prefix_append sep rest)

theorem Index_of_HasPrefix {s sep : Str} (h : HasPrefix s sep = true) :
    Index s sep = some 0 := by
  cases s with
  | nil =>
    cases sep with
    | nil => rfl
    | cons c t => simp [HasPrefix, List.isPrefixOf] at h
  | cons x s => simp [Index, h]

/-- A prefix test against a text that goes on with `c` can only succeed inside the part
before `c`, when the tested word has no `c`. -/
theorem prefix_of_prefix_append_cons {c : Char} :
    ∀ (t p u : Str), c ∉ t → t <+: p ++ c :: u → t <+: p := by
  intro t
  induction t with
  | nil => intro p u _ _; exact List.nil_prefix
  | cons y t ih =>
    intro p u hc h
    cases p with
    | nil =>
      rw [List.nil_append, List.cons_prefix_cons] at h
      exact absurd (List.mem_cons.mpr (Or.inl h.1.symm)) hc
    | cons z p =>
      rw [List.cons_append, List.cons_prefix_cons] at h
      rw [List.cons_prefix_cons]
      exact ⟨h.1, ih p u (fun hm => hc (List.mem_cons_of_mem _ hm)) h.2⟩

/-- The first occurrence of a separator whose first character does not occur again in
it: after a text that does not contain the separator, it is where that text ends. -/
theorem Index_append_first {c : Char} {t : Str} (hc : c ∉ t) :
    ∀ (pre rest : Str), Contains pre (c :: t) = false →
      Index (pre ++ (c :: t) ++ rest) (c :: t) = some pre.length := by
  intro pre
  induction pre with
  | nil =>
    intro rest _
    exact Index_of_HasPrefix (HasPrefix_append (c :: t) rest)
  | cons x p ih =>
    intro rest hpre
    unfold Contains at hpre
    have hI : Index (x :: p) (c :: t) = none := by
      cases h : Index (x :: p) (c :: t) with
      | none => rfl
      | some k => rw [h] at hpre; cases hpre
    unfold Index at hI
    by_cases hp : HasPrefix (x :: p) (c :: t) = true
    · rw [if_pos hp] at hI; cases hI
    · rw [if_neg hp] at hI
      have hIp : Index p (c :: t) = none := by
        cases h : Index p (c :: t) with
        | none => rfl
        | some k => rw [h] at hI; cases hI
      have hcp : Contains p (c :: t) = false := by
        unfold Contains; rw [hIp]; rfl
      have hnot : ¬ HasPrefix (x :: (p ++ (c :: t) ++ rest)) (c :: t) = true := by
        intro hh
        apply hp
        unfold HasPrefix at hh ⊢
        rw [List.isPrefixOf_iff_prefix] at hh ⊢
        rw [List.cons_prefix_cons] at hh ⊢
        refine ⟨hh.1, ?_⟩
        have h2 : t <+: p ++ c :: (t ++ rest) := by
          simpa [List.append_assoc] using hh.2
        exact prefix_of_prefix_append_cons t p (t ++ rest) hc h2
      show Index (x :: (p ++ (c :: t) ++ rest)) (c :: t) = some (p.length + 1)
      unfold Index
      rw [if_neg hnot, ih rest hcp]
      rfl

theorem Index_none_of_not_Contains {s sep : Str} (h : Contains s sep = false) :
    Index s sep = none := by
  unfold Contains at h
  cases hI : Index s sep with
  | none => rfl
  | some k => rw [hI] at h; cases h

/-- The fields of a text in which the separator occurs once, first at the end of `pre`. -/
theorem Split_append_first {c : Char} {t : Str} (hc : c ∉ t) (pre rest : Str)
    (hpre : Contains pre (c :: t) = false) (hrest : Contains rest (c :: t) = false) :
    Split (pre ++ (c :: t) ++ rest) (c :: t) = [pre, rest] := by
  have hsep : (c :: t) ≠ [] := List.cons_ne_nil c t
  rw [Split_of_Index_some hsep (Index_append_first hc pre rest hpre)]
  have h1 : (pre ++ (c :: t) ++ rest).take pre.length = pre := by
    rw [List.append_assoc]; exact List.take_left' rfl
  have h2 : (pre ++ (c :: t) ++ rest).drop (pre.length + (c :: t).length) = rest := by
    exact List.drop_left' (by simp)
  rw [h1, h2, Split_of_Index_none hsep (Index_none_of_not_Contains hrest)]

theorem TrimSuffix_append (mid tag : Str) : TrimSuffix (mid ++ tag) tag = mid := by
  unfold TrimSuffix HasSuffix
  rw [List.isSuffixOf_iff_suffix.mpr (List.suffix_append mid tag)]
  simp

theorem TrimPrefix_append (lit rest : Str) : TrimPrefix (lit ++ rest) lit = rest := by
  unfold TrimPrefix
  rw [HasPrefix_append]
  simp

/-! ### A separator of one character -/

theorem Index_singleton_cons (x c : Char) (s : Str) :
    Index (x :: s) [c] = if x = c then some 0 else (Index s [c]).map (· + 1) := by
  by_cases h : x = c
  · subst h
    simp [Index, HasPrefix, List.isPrefixOf]
  · have h2 : ¬ c = x := fun e => h e.symm
    simp [Index, HasPrefix, List.isPrefixOf, h, h2]

theorem Split_singleton_cons_self (c : Char) (s : Str) :
    Split (c :: s) [c] = [] :: Split s [c] := by
  have hI : Index (c :: s) [c] = some 0 := by rw [Index_singleton_cons]; simp
  rw [Split_of_Index_some (List.cons_ne_nil c []) hI]
  simp

theorem Split_singleton_cons_ne {x c : Char} (h : x ≠ c) (s : Str) :
    Split (x :: s) [c] =
      (x :: (Split s [c]).headD []) :: (Split s [c]).tail := by
  have hsep : [c] ≠ [] := List.cons_ne_nil c []
  cases hI : Index s [c] with
  | none =>
    have hI2 : Index (x :: s) [c] = none := by rw [Index_singleton_cons, if_neg h, hI]; rfl
    rw [Split_of_Index_none hsep hI2, Split_of_Index_none hsep hI]
    rfl
  | some m =>
    have hI2 : Index (x :: s) [c] = some (m + 1) := by
      rw [Index_singleton_cons, if_neg h, hI]; rfl
    rw [Split_of_Index_some hsep hI2, Split_of_Index_some hsep hI]
    simp

/-- Splitting on one character cuts at every occurrence: the fields of `a`, `c`, `b` in
a row are the fields of `a` followed by the fields of `b`. -/
theorem Split_append_singleton (c : Char) (b : Str) :
    ∀ a : Str, Split (a ++ c :: b) [c] = Split a [c] ++ Split b [c] := by
  have hsep : [c] ≠ [] := List.cons_ne_nil c []
  intro a
  induction a with
  | nil =>
    rw [List.nil_append, Split_singleton_cons_self,
      Split_of_Index_none hsep (Index_nil hsep)]
    rfl
  | cons x a ih =>
    by_cases h : x = c
    · subst h
      rw [List.cons_append, Split_singleton_cons_self, Split_singleton_cons_self, ih]
      rfl
    · rw [List.cons_append, Split_singleton_cons_ne h, Split_singleton_cons_ne h, ih]
      cases hS : Split a [c] with
      | nil => exact absurd hS (Split_ne_nil hsep)
      | cons hd tl => rfl

theorem Split_singleton_of_not_mem {c : Char} :
    ∀ s : Str, c ∉ s → Split s [c] = [s] := by
  have hsep : [c] ≠ [] := List.cons_ne_nil c []
  intro s
  induction s with
  | nil => intro _; exact Split_of_Index_none hsep (Index_nil hsep)
  | cons x s ih =>
    intro hc
    have hx : x ≠ c := fun e => hc (by rw [e]; exact List.mem_cons_self _ _)
    have hs : c ∉ s := fun hm => hc (List.mem_cons_of_mem _ hm)
    rw [Split_singleton_cons_ne hx, ih hs]
    rfl

end strings

/-! ## The loop of `ParseFSecureOutput` -/

theorem infectedLit_ne_nil : infectedLit ≠ [] := by decide

theorem field_one_of_Contains {line : Str} (h : Contains line infectedLit = true) :
    (Split line infectedLit)[1]? = some ((Split line infectedLit).getD 1 []) := by
  have hlen := two_le_length_Split infectedLit_ne_nil h
  rw [List.getD_eq_getElem?_getD]
  rw [List.getElem?_eq_getElem (by omega)]
  rfl

theorem scanLine_eq_scanStep (fsecure : ResultsData) (line : Str) :
    scanLine fsecure line = some (scanStep fsecure line) := by
  unfold scanLine scanStep verdictOf
  by_cases h1 : isFSELine line = true
  · have hc : Contains line infectedLit = true := by
      unfold isFSELine at h1
      rw [Bool.and_eq_true] at h1; exact h1.1
    rw [if_pos h1, if_pos h1, field_one_of_Contains hc]
  · rw [if_neg h1, if_neg h1]
    by_cases h2 : isAquariusLine line = true
    · have hc : Contains line infectedLit = true := by
        unfold isAquariusLine at h2
        rw [Bool.and_eq_true] at h2; exact h2.1
      rw [if_pos h2, if_pos h2, field_one_of_Contains hc]
    · rw [if_neg h2, if_neg h2]

theorem foldlM_scanLine (lines : List Str) :
    ∀ fsecure : ResultsData,
      lines.foldlM scanLine fsecure = some (lines.foldl scanStep fsecure) := by
  induction lines with
  | nil => intro fsecure; rfl
  | cons l ls ih =>
    intro fsecure
    rw [List.foldlM_cons, scanLine_eq_scanStep]
    exact ih _

theorem ParseFSecureOutput_eq (env : Env) (text : Str) :
    ParseFSecureOutput env text =
      some ((Split text newline).foldl scanStep (initResults env), none) := by
  unfold ParseFSecureOutput
  rw [foldlM_scanLine]

/-- Last element of the lines that satisfy `p`, after one more line. -/
theorem getLast?_filter_concat (p : Str → Bool) (ls : List Str) (l : Str) :
    ((ls ++ [l]).filter p).getLast? =
      if p l then some l else (ls.filter p).getLast? := by
  rw [List.filter_append]
  by_cases h : p l = true
  · rw [if_pos h]
    have : [l].filter p = [l] := by simp [h]
    rw [this, List.getLast?_append]
    simp
  · rw [if_neg h]
    have : [l].filter p = [] := by simp [h]
    rw [this, List.append_nil]

/-- What the loop leaves in each field, for any start value. -/
theorem foldl_scanStep (lines : List Str) (st : ResultsData) :
    (lines.foldl scanStep st).Infected =
        (st.Infected || lines.any fun l => isFSELine l || isAquariusLine l) ∧
      (lines.foldl scanStep st).Engines.FSE =
        ((lines.filter isFSELine).getLast?.elim st.Engines.FSE (verdictOf fseTag)) ∧
      (lines.foldl scanStep st).Engines.Aquarius =
        ((lines.filter fun l => isAquariusLine l && !isFSELine l).getLast?.elim
          st.Engines.Aquarius (verdictOf aquariusTag)) ∧
      (lines.foldl scanStep st).Engine = st.Engine ∧
      (lines.foldl scanStep st).Database = st.Database ∧
      (lines.foldl scanStep st).Updated = st.Updated := by
  induction lines using List.reverseRecOn with
  | nil => simp
  | append_singleton ls l ih =>
    rw [List.foldl_append, List.foldl_cons, List.foldl_nil]
    rw [getLast?_filter_concat, getLast?_filter_concat, List.any_append]
    generalize List.foldl scanStep st ls = r at ih ⊢
    obtain ⟨h1, h2, h3, h4, h5, h6⟩ := ih
    rw [← Bool.or_assoc, ← h1, ← h4, ← h5, ← h6]
    unfold scanStep
    by_cases hf : isFSELine l = true
    · simp [hf, h2, h3]
    · by_cases ha : isAquariusLine l = true
      · simp [hf, ha, h2, h3]
      · simp [hf, ha, h2, h3]

set_option maxRecDepth 100000

theorem Contains_append_mid (sep b : Str) :
    ∀ a : Str, Contains (a ++ sep ++ b) sep = true := by
  intro a
  induction a with
  | nil =>
    unfold Contains
    rw [List.nil_append, Index_of_HasPrefix (HasPrefix_append sep b)]
    rfl
  | cons x a ih =>
    unfold Contains at ih ⊢
    show (Index (x :: (a ++ sep ++ b)) sep).isSome = true
    unfold Index
    by_cases hp : HasPrefix (x :: (a ++ sep ++ b)) sep = true
    · rw [if_pos hp]; rfl
    · rw [if_neg hp]
      cases hI : Index (a ++ sep ++ b) sep with
      | none => rw [hI] at ih; cases ih
      | some k => rfl

theorem infectedLit_eq : infectedLit = 'I' :: "nfected:".toList := by decide

theorem infectedLit_head_not_mem : 'I' ∉ "nfected:".toList := by decide

/-- The verdict read off a line that ends with the tag and has `Infected:` once. -/
theorem verdictOf_line (tag pre mid : Str) (hpre : Contains pre infectedLit = false)
    (hmid : Contains (mid ++ tag) infectedLit = false) :
    verdictOf tag (pre ++ infectedLit ++ mid ++ tag) = TrimSpace mid := by
  unfold verdictOf
  rw [List.append_assoc (pre ++ infectedLit) mid tag]
  rw [infectedLit_eq] at hpre hmid ⊢
  rw [Split_append_first infectedLit_head_not_mem pre (mid ++ tag) hpre hmid]
  show TrimSpace (TrimSuffix (mid ++ tag) tag) = TrimSpace mid
  rw [TrimSuffix_append]

theorem filter_eq_singleton (p : Str → Bool) (before after : List Str) (line : Str)
    (hline : p line = true) (hothers : ∀ l ∈ before ++ after, p l = false) :
    (before ++ line :: after).filter p = [line] := by
  have hb : before.filter p = [] := by
    rw [List.filter_eq_nil_iff]
    intro l hl
    rw [hothers l (List.mem_append_left _ hl)]
    exact Bool.false_ne_true
  have ha : after.filter p = [] := by
    rw [List.filter_eq_nil_iff]
    intro l hl
    rw [hothers l (List.mem_append_right _ hl)]
    exact Bool.false_ne_true
  rw [List.filter_append, List.filter_cons, if_pos hline, hb, ha]
  rfl

/-! ## The claims about `ParseFSecureOutput` -/

/-- C1 (amended): for every scan text with a line that contains both `Infected:` and
`[FSE]`, `ParseFSecureOutput` returns with a nil error and `Infected = true`, and the
FSE verdict is the text read off the last such line,
`TrimSpace(TrimSuffix(parts[1], "[FSE]"))`; that text may be empty. -/
theorem C1_fse_line_sets_infected (env : Env) (text : Str)
    (h : ∃ line ∈ Split text newline,
      Contains line infectedLit = true ∧ Contains line fseTag = true) :
    ∃ r last, ParseFSecureOutput env text = some (r, none) ∧ r.Infected = true ∧
      ((Split text newline).filter isFSELine).getLast? = some last ∧
      r.Engines.FSE = verdictOf fseTag last := by
  obtain ⟨line, hmem, hi, hf⟩ := h
  have hfse : isFSELine line = true := by unfold isFSELine; rw [hi, hf]; rfl
  have hne : (Split text newline).filter isFSELine ≠ [] := by
    intro hnil
    rw [List.filter_eq_nil_iff] at hnil
    exact hnil line hmem hfse
  obtain ⟨h1, h2, -⟩ := foldl_scanStep (Split text newline) (initResults env)
  refine ⟨_, ((Split text newline).filter isFSELine).getLast hne,
    ParseFSecureOutput_eq env text, ?_, List.getLast?_eq_getLast _ hne, ?_⟩
  · rw [h1, Bool.or_eq_true]
    right
    rw [List.any_eq_true]
    exact ⟨line, hmem, by rw [hfse]; rfl⟩
  · rw [h2, List.getLast?_eq_getLast _ hne]
    rfl

/-- Witness of C1 on the sample scan output. -/
theorem C1_fse_line_sets_infected_witness :
    ∃ r last, ParseFSecureOutput sampleEnv sampleScan = some (r, none) ∧ r.Infected = true ∧
      ((Split sampleScan newline).filter isFSELine).getLast? = some last ∧
      r.Engines.FSE = verdictOf fseTag last :=
  C1_fse_line_sets_infected sampleEnv sampleScan
    ⟨"eicar.com.txt: Infected: EICAR_Test_File [FSE]".toList, by decide, by decide, by decide⟩

/-- C1 as stated fails: the only line of the text `Infected:[FSE]` contains both
`Infected:` and `[FSE]`, and the FSE verdict returned is empty. -/
theorem C1_counterexample :
    (∃ line ∈ Split "Infected:[FSE]".toList newline,
      Contains line infectedLit = true ∧ Contains line fseTag = true) ∧
    (ParseFSecureOutput sampleEnv "Infected:[FSE]".toList).map
      (fun r => (r.1.Infected, r.1.Engines.FSE)) = some (true, []) :=
  ⟨⟨"Infected:[FSE]".toList, by decide, by decide, by decide⟩, by decide⟩

/-- C2: for every scan text none of whose lines contains `Infected:`,
`ParseFSecureOutput` returns `Infected = false`, an empty FSE verdict, an empty
Aquarius verdict, and a nil error. -/
theorem C2_no_infected_line_is_clean (env : Env) (text : Str)
    (h : ∀ line ∈ Split text newline, Contains line infectedLit = false) :
    ∃ r, ParseFSecureOutput env text = some (r, none) ∧ r.Infected = false ∧
      r.Engines.FSE = [] ∧ r.Engines.Aquarius = [] := by
  have hF : ∀ l ∈ Split text newline, isFSELine l = false := by
    intro l hl; unfold isFSELine; rw [h l hl]; rfl
  have hA : ∀ l ∈ Split text newline, isAquariusLine l = false := by
    intro l hl; unfold isAquariusLine; rw [h l hl]; rfl
  obtain ⟨h1, h2, h3, -⟩ := foldl_scanStep (Split text newline) (initResults env)
  refine ⟨_, ParseFSecureOutput_eq env text, ?_, ?_, ?_⟩
  · rw [h1]
    have : ((Split text newline).any fun l => isFSELine l || isAquariusLine l) = false := by
      rw [List.any_eq_false]
      intro l hl
      rw [hF l hl, hA l hl]
      exact Bool.false_ne_true
    rw [this]
    rfl
  · have : (Split text newline).filter isFSELine = [] := by
      rw [List.filter_eq_nil_iff]
      intro l hl
      rw [hF l hl]
      exact Bool.false_ne_true
    rw [h2, this]
    rfl
  · have : (Split text newline).filter (fun l => isAquariusLine l && !isFSELine l) = [] := by
      rw [List.filter_eq_nil_iff]
      intro l hl
      rw [hA l hl]
      exact Bool.false_ne_true
    rw [h3, this]
    rfl

/-- Witness of C2 on a scan output without findings. -/
theorem C2_no_infected_line_is_clean_witness :
    ∃ r, ParseFSecureOutput sampleEnv
        "Scan started at Mon Aug 22 02:43:50 2016\n\n1 file scanned".toList = some (r, none) ∧
      r.Infected = false ∧ r.Engines.FSE = [] ∧ r.Engines.Aquarius = [] :=
  C2_no_infected_line_is_clean sampleEnv
    "Scan started at Mon Aug 22 02:43:50 2016\n\n1 file scanned".toList (by decide)

/-- C3 (amended): for every scan text, `ParseFSecureOutput` returns a result in which a
non-empty FSE or Aquarius verdict implies `Infected = true`, and `Infected = true`
holds exactly when some line contains `Infected:` together with `[FSE]` or
`[Aquarius]`; the verdicts may both be empty when `Infected` is true. -/
theorem C3_verdict_implies_infected (env : Env) (text : Str) :
    ∃ r, ParseFSecureOutput env text = some (r, none) ∧
      ((r.Engines.FSE ≠ [] ∨ r.Engines.Aquarius ≠ []) → r.Infected = true) ∧
      (r.Infected = true ↔
        ∃ line ∈ Split text newline, Contains line infectedLit = true ∧
          (Contains line fseTag = true ∨ Contains line aquariusTag = true)) := by
  obtain ⟨h1, h2, h3, -⟩ := foldl_scanStep (Split text newline) (initResults env)
  have hiff : ((Split text newline).foldl scanStep (initResults env)).Infected = true ↔
      ∃ line ∈ Split text newline, Contains line infectedLit = true ∧
        (Contains line fseTag = true ∨ Contains line aquariusTag = true) := by
    rw [h1]
    show (false || _) = true ↔ _
    rw [Bool.false_or, List.any_eq_true]
    constructor
    · rintro ⟨l, hl, hp⟩
      refine ⟨l, hl, ?_⟩
      unfold isFSELine isAquariusLine at hp
      cases hi : Contains l infectedLit <;> cases hf : Contains l fseTag <;>
        cases ha : Contains l aquariusTag <;> simp [hi, hf, ha] at hp ⊢
    · rintro ⟨l, hl, hi, hfa⟩
      refine ⟨l, hl, ?_⟩
      unfold isFSELine isAquariusLine
      rcases hfa with hf | ha
      · simp [hi, hf]
      · simp [hi, ha]
  refine ⟨_, ParseFSecureOutput_eq env text, ?_, hiff⟩
  intro hv
  rw [hiff]
  rcases hv with hv | hv
  · rw [h2] at hv
    cases hlast : ((Split text newline).filter isFSELine).getLast? with
    | none => rw [hlast] at hv; exact absurd rfl hv
    | some l =>
      have hmem := List.mem_of_getLast?_eq_some hlast
      rw [List.mem_filter] at hmem
      obtain ⟨hl, hp⟩ := hmem
      unfold isFSELine at hp
      rw [Bool.and_eq_true] at hp
      exact ⟨l, hl, hp.1, Or.inl hp.2⟩
  · rw [h3] at hv
    cases hlast :
        ((Split text newline).filter fun l => isAquariusLine l && !isFSELine l).getLast? with
    | none => rw [hlast] at hv; exact absurd rfl hv
    | some l =>
      have hmem := List.mem_of_getLast?_eq_some hlast
      rw [List.mem_filter] at hmem
      obtain ⟨hl, hp⟩ := hmem
      rw [Bool.and_eq_true] at hp
      have hq := hp.1
      unfold isAquariusLine at hq
      rw [Bool.and_eq_true] at hq
      exact ⟨l, hl, hq.1, Or.inr hq.2⟩

/-- C3 as stated fails: on the text `scan.bin: Infected: [FSE]` the result has
`Infected = true` while the FSE verdict and the Aquarius verdict are both empty. -/
theorem C3_counterexample :
    (ParseFSecureOutput sampleEnv "scan.bin: Infected: [FSE]".toList).map
      (fun r => (r.1.Infected, r.1.Engines.FSE, r.1.Engines.Aquarius)) =
        some (true, [], []) := by
  decide

/-- C8: `ParseFSecureOutput` never fails. For every input text it returns a result with
a nil error, and on every line that contains `Infected:` together with `[FSE]` or
`[Aquarius]` the split on `Infected:` has at least two fields, so `parts[1]` is in
range. -/
theorem C8_parse_never_fails (env : Env) (text : Str) :
    (∃ r, ParseFSecureOutput env text = some (r, none)) ∧
      ∀ line ∈ Split text newline, Contains line infectedLit = true →
        (Contains line fseTag = true ∨ Contains line aquariusTag = true) →
        2 ≤ (Split line infectedLit).length ∧
          ∃ p1, (Split line infectedLit)[1]? = some p1 := by
  refine ⟨⟨_, ParseFSecureOutput_eq env text⟩, ?_⟩
  intro line _ hi _
  exact ⟨two_le_length_Split infectedLit_ne_nil hi, _, field_one_of_Contains hi⟩

/-- C9: for every scan text, a line that does not contain `Infected:` together with
`[FSE]` or `[Aquarius]` can be inserted (or deleted) between two lines, before the
first line or after the last line without changing what `ParseFSecureOutput` returns,
so the `Infected` flag and both verdicts stay the same. -/
theorem C9_other_lines_ignored (env : Env) (a b extra : Str)
    (hline : '\n' ∉ extra)
    (hextra : ¬ (Contains extra infectedLit = true ∧
      (Contains extra fseTag = true ∨ Contains extra aquariusTag = true))) :
    ParseFSecureOutput env (a ++ newline ++ extra ++ newline ++ b) =
        ParseFSecureOutput env (a ++ newline ++ b) ∧
      ParseFSecureOutput env (extra ++ newline ++ b) = ParseFSecureOutput env b ∧
      ParseFSecureOutput env (a ++ newline ++ extra) = ParseFSecureOutput env a := by
  have hstep : ∀ st, scanStep st extra = st := by
    intro st
    unfold scanStep isFSELine isAquariusLine
    cases hi : Contains extra infectedLit <;> cases hf : Contains extra fseTag <;>
      cases ha : Contains extra aquariusTag <;> simp [hi, hf, ha] at hextra ⊢
  have hS : Split extra newline = [extra] := Split_singleton_of_not_mem extra hline
  have e1 : Split (a ++ newline ++ extra ++ newline ++ b) newline =
      Split a newline ++ extra :: Split b newline := by
    have : a ++ newline ++ extra ++ newline ++ b = a ++ '\n' :: (extra ++ '\n' :: b) := by
      simp [newline]
    rw [this]
    show Split _ ['\n'] = _
    rw [Split_append_singleton, Split_append_singleton]
    show _ ++ (Split extra newline ++ _) = _
    rw [hS]
    rfl
  have e2 : Split (a ++ newline ++ b) newline = Split a newline ++ Split b newline := by
    have : a ++ newline ++ b = a ++ '\n' :: b := by simp [newline]
    rw [this]
    exact Split_append_singleton _ _ _
  have e3 : Split (extra ++ newline ++ b) newline = extra :: Split b newline := by
    have : extra ++ newline ++ b = extra ++ '\n' :: b := by simp [newline]
    rw [this]
    show Split _ ['\n'] = _
    rw [Split_append_singleton]
    show Split extra newline ++ _ = _
    rw [hS]
    rfl
  have e4 : Split (a ++ newline ++ extra) newline = Split a newline ++ [extra] := by
    have : a ++ newline ++ extra = a ++ '\n' :: extra := by simp [newline]
    rw [this]
    show Split _ ['\n'] = _
    rw [Split_append_singleton]
    show _ ++ Split extra newline = _
    rw [hS]
    rfl
  refine ⟨?_, ?_, ?_⟩
  · rw [ParseFSecureOutput_eq, ParseFSecureOutput_eq, e1, e2, List.foldl_append,
      List.foldl_cons, hstep, List.foldl_append]
  · rw [ParseFSecureOutput_eq, ParseFSecureOutput_eq, e3, List.foldl_cons, hstep]
  · rw [ParseFSecureOutput_eq, ParseFSecureOutput_eq, e4, List.foldl_append,
      List.foldl_cons, List.foldl_nil, hstep]

/-- Witness of C9: a licence line put into, before and after a scan output. -/
theorem C9_other_lines_ignored_witness :
    ParseFSecureOutput sampleEnv
          ("x: Infected: A [FSE]".toList ++ newline ++ "FREE TO USE FOR 30 DAYS.".toList ++
            newline ++ "x: Infected: B [Aquarius]".toList) =
        ParseFSecureOutput sampleEnv
          ("x: Infected: A [FSE]".toList ++ newline ++ "x: Infected: B [Aquarius]".toList) ∧
      ParseFSecureOutput sampleEnv
          ("FREE TO USE FOR 30 DAYS.".toList ++ newline ++ "x: Infected: B [Aquarius]".toList) =
        ParseFSecureOutput sampleEnv "x: Infected: B [Aquarius]".toList ∧
      ParseFSecureOutput sampleEnv
          ("x: Infected: A [FSE]".toList ++ newline ++ "FREE TO USE FOR 30 DAYS.".toList) =
        ParseFSecureOutput sampleEnv "x: Infected: A [FSE]".toList :=
  C9_other_lines_ignored sampleEnv "x: Infected: A [FSE]".toList
    "x: Infected: B [Aquarius]".toList "FREE TO USE FOR 30 DAYS.".toList
    (by decide) (by decide)

/-- C7 (amended): for every scan text `ParseFSecureOutput` returns with a nil error;
the FSE verdict is the one read off the last line carrying `Infected:` and `[FSE]`
(empty without such a line); the Aquarius verdict is the one read off the last line
carrying `Infected:` and `[Aquarius]` but not `[FSE]` (empty without such a line), since
a line with both tags only sets the FSE verdict; `Infected` is true exactly when some
line carries `Infected:` with one of the tags. -/
theorem C7_verdicts_per_engine (env : Env) (text : Str) :
    ∃ r, ParseFSecureOutput env text = some (r, none) ∧
      r.Infected = ((Split text newline).any fun l => isFSELine l || isAquariusLine l) ∧
      r.Engines.FSE =
        ((Split text newline).filter isFSELine).getLast?.elim [] (verdictOf fseTag) ∧
      r.Engines.Aquarius =
        ((Split text newline).filter fun l => isAquariusLine l && !isFSELine l).getLast?.elim []
          (verdictOf aquariusTag) := by
  obtain ⟨h1, h2, h3, -⟩ := foldl_scanStep (Split text newline) (initResults env)
  exact ⟨_, ParseFSecureOutput_eq env text, h1, h2, h3⟩

/-- C7 as stated fails: in the text `f: Infected: W32/A [FSE] [Aquarius]` the last (and
only) line carrying `Infected:` and `[Aquarius]` is the whole text; the Aquarius verdict
read off that line would be `W32/A [FSE]`, and the Aquarius verdict returned is
empty. -/
theorem C7_counterexample :
    ((Split "f: Infected: W32/A [FSE] [Aquarius]".toList newline).filter
        isAquariusLine).getLast? = some "f: Infected: W32/A [FSE] [Aquarius]".toList ∧
      verdictOf aquariusTag "f: Infected: W32/A [FSE] [Aquarius]".toList =
        "W32/A [FSE]".toList ∧
      (ParseFSecureOutput sampleEnv "f: Infected: W32/A [FSE] [Aquarius]".toList).map
        (fun r => (r.1.Infected, r.1.Engines.Aquarius)) = some (true, []) := by
  decide

/-- C4 (amended): when exactly one line of the scan text contains both `Infected:` and
`[FSE]`, that line ends with the tag `[FSE]` and `Infected:` occurs in it only once,
the FSE verdict returned by `ParseFSecureOutput` is the text between `Infected:` and
the final `[FSE]`, trimmed of white space, whatever precedes the marker. The same holds
for `[Aquarius]` and the Aquarius verdict when, in addition, the line does not contain
`[FSE]`. -/
theorem C4_verdict_between_marker_and_tag (env : Env) (text : Str)
    (before after : List Str) (pre mid : Str) :
    (Split text newline = before ++ (pre ++ infectedLit ++ mid ++ fseTag) :: after →
      (∀ l ∈ before ++ after,
        ¬ (Contains l infectedLit = true ∧ Contains l fseTag = true)) →
      Contains pre infectedLit = false →
      Contains (mid ++ fseTag) infectedLit = false →
      ∃ r, ParseFSecureOutput env text = some (r, none) ∧
        r.Engines.FSE = TrimSpace mid) ∧
    (Split text newline = before ++ (pre ++ infectedLit ++ mid ++ aquariusTag) :: after →
      (∀ l ∈ before ++ after,
        ¬ (Contains l infectedLit = true ∧ Contains l aquariusTag = true)) →
      Contains pre infectedLit = false →
      Contains (mid ++ aquariusTag) infectedLit = false →
      Contains (pre ++ infectedLit ++ mid ++ aquariusTag) fseTag = false →
      ∃ r, ParseFSecureOutput env text = some (r, none) ∧
        r.Engines.Aquarius = TrimSpace mid) := by
  have hinf : ∀ tag : Str, Contains (pre ++ infectedLit ++ mid ++ tag) infectedLit = true := by
    intro tag
    rw [List.append_assoc (pre ++ infectedLit) mid tag]
    exact Contains_append_mid infectedLit (mid ++ tag) pre
  have htag : ∀ tag : Str, Contains (pre ++ infectedLit ++ mid ++ tag) tag = true := by
    intro tag
    have := Contains_append_mid tag [] (pre ++ infectedLit ++ mid)
    rwa [List.append_nil] at this
  constructor
  · intro hsplit hothers hpre hmid
    obtain ⟨-, h2, -⟩ := foldl_scanStep (Split text newline) (initResults env)
    refine ⟨_, ParseFSecureOutput_eq env text, ?_⟩
    have hline : isFSELine (pre ++ infectedLit ++ mid ++ fseTag) = true := by
      unfold isFSELine; rw [hinf, htag]; rfl
    have hrest : ∀ l ∈ before ++ after, isFSELine l = false := by
      intro l hl
      have := hothers l hl
      unfold isFSELine
      cases hi : Contains l infectedLit <;> cases hf : Contains l fseTag <;>
        simp [hi, hf] at this ⊢
    rw [h2, hsplit, filter_eq_singleton isFSELine before after _ hline hrest]
    exact verdictOf_line fseTag pre mid hpre hmid
  · intro hsplit hothers hpre hmid hnofse
    obtain ⟨-, -, h3, -⟩ := foldl_scanStep (Split text newline) (initResults env)
    refine ⟨_, ParseFSecureOutput_eq env text, ?_⟩
    have hline : (fun l => isAquariusLine l && !isFSELine l)
        (pre ++ infectedLit ++ mid ++ aquariusTag) = true := by
      show (isAquariusLine _ && !isFSELine _) = true
      unfold isAquariusLine isFSELine
      rw [hinf, htag, hnofse]
      rfl
    have hrest : ∀ l ∈ before ++ after,
        (fun l => isAquariusLine l && !isFSELine l) l = false := by
      intro l hl
      have := hothers l hl
      show (isAquariusLine l && !isFSELine l) = false
      unfold isAquariusLine
      cases hi : Contains l infectedLit <;> cases ha : Contains l aquariusTag <;>
        simp [hi, ha] at this ⊢
    rw [h3, hsplit, filter_eq_singleton _ before after _ hline hrest]
    exact verdictOf_line aquariusTag pre mid hpre hmid

/-- Witness of C4 on the sample scan output: the FSE line gives `EICAR_Test_File`, the
Aquarius line gives `EICAR-Test-File (not a virus)`. -/
theorem C4_verdict_between_marker_and_tag_witness :
    (∃ r, ParseFSecureOutput sampleEnv sampleScan = some (r, none) ∧
        r.Engines.FSE = "EICAR_Test_File".toList) ∧
      ∃ r, ParseFSecureOutput sampleEnv sampleScan = some (r, none) ∧
        r.Engines.Aquarius = "EICAR-Test-File (not a virus)".toList :=
  ⟨(C4_verdict_between_marker_and_tag sampleEnv sampleScan
      ["Scan started at Mon Aug 22 02:43:50 2016".toList,
        "Database version: 2016-08-22_01".toList, []]
      ["eicar.com.txt: Infected: EICAR-Test-File (not a virus) [Aquarius]".toList, [],
        "1 file scanned".toList]
      "eicar.com.txt: ".toList " EICAR_Test_File ".toList).1
      (by decide) (by decide) (by decide) (by decide),
    (C4_verdict_between_marker_and_tag sampleEnv sampleScan
      ["Scan started at Mon Aug 22 02:43:50 2016".toList,
        "Database version: 2016-08-22_01".toList, [],
        "eicar.com.txt: Infected: EICAR_Test_File [FSE]".toList]
      [[], "1 file scanned".toList]
      "eicar.com.txt: ".toList " EICAR-Test-File (not a virus) ".toList).2
      (by decide) (by decide) (by decide) (by decide) (by decide)⟩

/-- C4 as stated fails: the only line of the text
`eicar.com.txt: Infected: EICAR_Test_File [FSE] (quarantined)` has the tag after the
marker, the text between them trimmed is `EICAR_Test_File`, and the FSE verdict
returned is `EICAR_Test_File [FSE] (quarantined)`. -/
theorem C4_counterexample :
    Split "eicar.com.txt: Infected: EICAR_Test_File [FSE] (quarantined)".toList newline =
        ["eicar.com.txt: ".toList ++ infectedLit ++ " EICAR_Test_File ".toList ++ fseTag ++
          " (quarantined)".toList] ∧
      TrimSpace " EICAR_Test_File ".toList = "EICAR_Test_File".toList ∧
      (ParseFSecureOutput sampleEnv
          "eicar.com.txt: Infected: EICAR_Test_File [FSE] (quarantined)".toList).map
        (fun r => r.1.Engines.FSE) = some "EICAR_Test_File [FSE] (quarantined)".toList := by
  decide

/-! ## The loop of `parseFSecureVersion` -/

/-- The database version the loop returns: read off the first line that contains
`Database version:` and has exactly two fields, else the start value. -/
theorem versionLoop_snd (lines : List Str) :
    ∀ version database : Str,
      (versionLoop lines version database).2 =
        (lines.find? isDatabaseLine).elim database
          fun l => TrimSpace ((Split l colon).getD 1 []) := by
  induction lines with
  | nil => intro version database; rfl
  | cons line rest ih =>
    intro version database
    unfold versionLoop
    simp only []
    by_cases hc : Contains line databaseLit = true
    · rw [if_pos hc]
      rcases hS : Split line colon with _ | ⟨f0, _ | ⟨f1, _ | ⟨f2, tl⟩⟩⟩
      · simp [List.find?_cons, isDatabaseLine, hc, hS, ih]
      · simp [List.find?_cons, isDatabaseLine, hc, hS, ih]
      · simp [List.find?_cons, isDatabaseLine, hc, hS]
      · simp [List.find?_cons, isDatabaseLine, hc, hS, ih]
    · rw [if_neg hc, ih]
      simp [List.find?_cons, isDatabaseLine, hc]

/-- Lines without the version literal leave the engine version as it is. -/
theorem versionLoop_fst_of_no_version (lines : List Str) :
    ∀ version database : Str, (∀ l ∈ lines, Contains l versionLit = false) →
      (versionLoop lines version database).1 = version := by
  induction lines with
  | nil => intro version database _; rfl
  | cons line rest ih =>
    intro version database h
    have hl : Contains line versionLit = false := h line (List.mem_cons_self _ _)
    have hr : ∀ l ∈ rest, Contains l versionLit = false :=
      fun l hm => h l (List.mem_cons_of_mem _ hm)
    unfold versionLoop
    simp only [hl, Bool.false_eq_true, if_false]
    by_cases hc : Contains line databaseLit = true
    · rw [if_pos hc]
      rcases hS : Split line colon with _ | ⟨f0, _ | ⟨f1, _ | ⟨f2, tl⟩⟩⟩
      · exact ih _ _ hr
      · exact ih _ _ hr
      · rfl
      · exact ih _ _ hr
    · rw [if_neg hc]
      exact ih _ _ hr

/-- Lines without the version literal that do not end the loop are passed over. -/
theorem versionLoop_skip (before rest : List Str) :
    ∀ version database : Str, (∀ l ∈ before, Contains l versionLit = false) →
      (∀ l ∈ before, isDatabaseLine l = false) →
      versionLoop (before ++ rest) version database = versionLoop rest version database := by
  induction before with
  | nil => intro version database _ _; rfl
  | cons line before ih =>
    intro version database hv hd
    have hl : Contains line versionLit = false := hv line (List.mem_cons_self _ _)
    have hdl : isDatabaseLine line = false := hd line (List.mem_cons_self _ _)
    have ih2 := ih version database (fun l hm => hv l (List.mem_cons_of_mem _ hm))
      (fun l hm => hd l (List.mem_cons_of_mem _ hm))
    rw [List.cons_append]
    conv_lhs => unfold versionLoop
    simp only [hl, Bool.false_eq_true, if_false]
    by_cases hc : Contains line databaseLit = true
    · rw [if_pos hc]
      rcases hS : Split line colon with _ | ⟨f0, _ | ⟨f1, _ | ⟨f2, tl⟩⟩⟩
      · exact ih2
      · exact ih2
      · simp [isDatabaseLine, hc, hS] at hdl
      · exact ih2
    · rw [if_neg hc]
      exact ih2

theorem Contains_of_HasPrefix {s sep : Str} (h : HasPrefix s sep = true) :
    Contains s sep = true := by
  unfold Contains
  rw [Index_of_HasPrefix h]
  rfl

/-- Every text that `time.Parse` rejects is formatted from the zero time. -/
theorem parseUpdatedDate_of_Parse_none {date : Str} (h : time.Parse date = none) :
    parseUpdatedDate date = "10101".toList := by
  unfold parseUpdatedDate
  rw [h]
  decide

/-! ## The claims about `parseFSecureVersion` and `parseUpdatedDate` -/

/-- C5 (amended): for every version text, the database version returned by
`parseFSecureVersion` is decided by the first line that contains `Database version:`
and splits on `:` into exactly two fields: the result is the second field trimmed of
white space. Lines that contain `Database version:` with more fields are logged and
passed over; when no line qualifies the result is the empty string. -/
theorem C5_database_from_first_two_field_line (versionOut : Str) :
    (parseFSecureVersion versionOut).2 =
      ((Split versionOut newline).find? isDatabaseLine).elim []
        fun l => TrimSpace ((Split l colon).getD 1 []) := by
  unfold parseFSecureVersion
  exact versionLoop_snd _ _ _

/-- C5 as stated fails: in the text made of the lines `Database version: 2016:08` and
`Database version: 2016-08-22_01`, the first line containing `Database version:` has
three fields, and the database version returned is `2016-08-22_01`, not empty. -/
theorem C5_counterexample :
    (Split "Database version: 2016:08\nDatabase version: 2016-08-22_01".toList newline).find?
        (fun l => Contains l databaseLit) = some "Database version: 2016:08".toList ∧
      (Split "Database version: 2016:08".toList colon).length = 3 ∧
      (parseFSecureVersion
        "Database version: 2016:08\nDatabase version: 2016-08-22_01".toList).2 =
          "2016-08-22_01".toList := by
  decide

/-- C6 (amended): when exactly one line of the version text contains
`F-Secure Linux Security version`, that line starts with the literal, and no earlier
line contains `Database version:` with exactly two `:`-separated fields, the engine
version returned by `parseFSecureVersion` is the rest of the line after the literal,
trimmed of white space. -/
theorem C6_engine_version_after_literal (versionOut : Str) (before after : List Str)
    (rest : Str)
    (hsplit : Split versionOut newline = before ++ (versionLit ++ rest) :: after)
    (hothers : ∀ l ∈ before ++ after, Contains l versionLit = false)
    (hdb : ∀ l ∈ before,
      ¬ (Contains l databaseLit = true ∧ (Split l colon).length = 2)) :
    (parseFSecureVersion versionOut).1 = TrimSpace rest := by
  have hb : ∀ l ∈ before, Contains l versionLit = false :=
    fun l hl => hothers l (List.mem_append_left _ hl)
  have ha : ∀ l ∈ after, Contains l versionLit = false :=
    fun l hl => hothers l (List.mem_append_right _ hl)
  have hd : ∀ l ∈ before, isDatabaseLine l = false := by
    intro l hl
    have := hdb l hl
    unfold isDatabaseLine
    cases hc : Contains l databaseLit
    · rfl
    · simp [hc] at this ⊢
      exact this
  have hline : Contains (versionLit ++ rest) versionLit = true :=
    Contains_of_HasPrefix (HasPrefix_append versionLit rest)
  unfold parseFSecureVersion
  rw [hsplit, versionLoop_skip before _ [] [] hb hd]
  unfold versionLoop
  simp only [hline, if_true, TrimPrefix_append]
  by_cases hc : Contains (versionLit ++ rest) databaseLit = true
  · rw [if_pos hc]
    rcases hS : Split (versionLit ++ rest) colon with _ | ⟨f0, _ | ⟨f1, _ | ⟨f2, tl⟩⟩⟩
    · exact versionLoop_fst_of_no_version after _ _ ha
    · exact versionLoop_fst_of_no_version after _ _ ha
    · rfl
    · exact versionLoop_fst_of_no_version after _ _ ha
  · rw [if_neg hc]
    exact versionLoop_fst_of_no_version after _ _ ha

/-- Witness of C6 on the sample version text: the engine version is `11.00 build 79`. -/
theorem C6_engine_version_after_literal_witness :
    (parseFSecureVersion sampleVersion).1 = TrimSpace " 11.00 build 79".toList :=
  C6_engine_version_after_literal sampleVersion
    ["EVALUATION VERSION - FULLY FUNCTIONAL".toList, []]
    [[], "Database version: 2016-09-19_01".toList, [], "Scanner Engine versions:".toList]
    " 11.00 build 79".toList (by decide) (by decide) (by decide)

/-- C6 as stated fails. In the one-line text
`Product: F-Secure Linux Security version 11.00` the text after the literal, trimmed, is
`11.00`, and the engine version returned is the whole line. In the text made of the
lines `Database version: 2016-09-19_01` and `F-Secure Linux Security version 11.00`
the engine version returned is empty. -/
theorem C6_counterexample :
    Split "Product: F-Secure Linux Security version 11.00".toList newline =
        ["Product: ".toList ++ versionLit ++ " 11.00".toList] ∧
      TrimSpace " 11.00".toList = "11.00".toList ∧
      (parseFSecureVersion "Product: F-Secure Linux Security version 11.00".toList).1 =
        "Product: F-Secure Linux Security version 11.00".toList ∧
      Split "Database version: 2016-09-19_01\nF-Secure Linux Security version 11.00".toList
          newline =
        ["Database version: 2016-09-19_01".toList, versionLit ++ " 11.00".toList] ∧
      (parseFSecureVersion
        "Database version: 2016-09-19_01\nF-Secure Linux Security version 11.00".toList).1 =
          [] := by
  decide

/-- C10 fails on the code: the empty text does not match the layout, `time.Parse`
returns an error, and `parseUpdatedDate` returns `10101`, five characters and not
eight; the text `Mon, 02 Jan 0999 15:04:05 +0000` matches the layout and gives the
seven characters `9990102`. A date in the year 2016 gives eight digits. -/
theorem C10_date_not_always_eight_digits :
    time.Parse [] = none ∧
      parseUpdatedDate [] = "10101".toList ∧
      (parseUpdatedDate []).length = 5 ∧
      parseUpdatedDate "Mon, 02 Jan 0999 15:04:05 +0000".toList = "9990102".toList ∧
      parseUpdatedDate "Mon, 22 Aug 2016 02:43:50 +0000".toList = "20160822".toList := by
  decide

end FSecure
